import Mathlib

set_option maxHeartbeats 1000000

/-!
Shallow embedding of src/extraCredit05.js: enumeration of DFAs over a
two-symbol alphabet, structural validation, conversion of a DFA to a
one-directional tape-reading decider (TM-D), simulation of that decider,
and language-emptiness checking by breadth-first search.

JavaScript objects used as keyed maps (the transition table and its rows)
are modelled as association lists; object property access is `alookup`.
Symbols are `Char` (every symbol in the source is a one-character string).
The JS validator returns the numbers 1 / 0; it is modelled as returning
`Nat`.
-/

namespace EC05


/-- Association-list lookup, modelling JavaScript object property access. -/
def alookup {α β : Type} [DecidableEq α] : List (α × β) → α → Option β
  | [], _ => none
  | (k, v) :: rest, a => if a = k then some v else alookup rest a

/-- The DFA record of the source. -/
structure DFA where
  states : List Nat
  alphabet : List Char
  start : Nat
  finals : List Nat
  transitions : List (Nat × List (Char × Nat))
  deriving DecidableEq

/-- Check of one transition row: every alphabet symbol has an entry whose
target is a known state (inner loop of the validator). -/
def checkRow (dfa : DFA) (row : List (Char × Nat)) : Bool :=
  dfa.alphabet.all fun sym =>
    match alookup row sym with
    | none => false
    | some t => decide (t ∈ dfa.states)

/-- Check of one state: it has a transition row and the row passes
`checkRow` (outer loop of the validator). -/
def checkState (dfa : DFA) (s : Nat) : Bool :=
  match alookup dfa.transitions s with
  | none => false
  | some row => checkRow dfa row

/-- The validator `validateDFA` of the source: returns 1 when the start
state is known, all finals are known, and every state has a total
transition row with known targets; otherwise 0. -/
def validateDFA (dfa : DFA) : Nat :=
  if dfa.start ∈ dfa.states then
    if dfa.finals.all (fun f => decide (f ∈ dfa.states)) then
      if dfa.states.all (checkState dfa) then 1 else 0
    else 0
  else 0

/-- Modelled from the spec: the well-formedness clauses of section 3, as
the spec words them (start known, finals drawn from states, transitions
total with targets among the states). Used to compare the validator of
the source against the specification. -/
def WellFormedDFA (d : DFA) : Prop :=
  d.start ∈ d.states ∧
  (∀ f ∈ d.finals, f ∈ d.states) ∧
  ∀ s ∈ d.states, ∃ row, alookup d.transitions s = some row ∧
    ∀ sym ∈ d.alphabet, ∃ t, alookup row sym = some t ∧ t ∈ d.states

/-- The valid example DFA of the source. -/
def validDFA : DFA :=
  { states := [0, 1]
    alphabet := ['a', 'b']
    start := 0
    finals := [1]
    transitions := [(0, [('a', 1), ('b', 0)]), (1, [('a', 1), ('b', 0)])] }

/-- The invalid example DFA of the source (state 1 misses its entry for
symbol a). -/
def invalidDFA : DFA :=
  { states := [0, 1]
    alphabet := ['a', 'b']
    start := 0
    finals := [1]
    transitions := [(0, [('a', 1), ('b', 0)]), (1, [('b', 0)])] }

/-- The empty-language example DFA of the source. -/
def emptyDFA : DFA :=
  { states := [0, 1]
    alphabet := ['a', 'b']
    start := 0
    finals := []
    transitions := [(0, [('a', 1), ('b', 1)]), (1, [('a', 1), ('b', 1)])] }

/-- The nonempty-language example DFA of the source. -/
def nonEmptyDFA : DFA :=
  { states := [0, 1]
    alphabet := ['a', 'b']
    start := 0
    finals := [1]
    transitions := [(0, [('a', 1), ('b', 0)]), (1, [('a', 1), ('b', 1)])] }

/-- The TM-decider record produced by `convertDFAtoTM` in the source. -/
structure TM where
  states : List Nat
  start : Nat
  finals : List Nat
  dfaTransitions : List (Nat × List (Char × Nat))
  blank : Char
  deriving DecidableEq

/-- The converter of the source: copies states, start, finals and the
transition lookup, and attaches the blank symbol, which the source fixes
to the underscore character. -/
def convertDFAtoTM (dfa : DFA) : TM :=
  { states := dfa.states
    start := dfa.start
    finals := dfa.finals
    dfaTransitions := dfa.transitions
    blank := '_' }

/-- Action label of one trace entry of the simulator (the data carried by
the formatted log string of the source). -/
inductive TMAction where
  | start : TMAction
  | read (symbol : Char) (next : Nat) : TMAction
  | halt (decision : String) : TMAction
  deriving DecidableEq

/-- One configuration snapshot pushed by logConfig in the source: current
state, the full tape, the head position, and the action label. -/
structure TMConfig where
  state : Nat
  tape : List Char
  head : Nat
  action : TMAction
  deriving DecidableEq

/-- Loop body of `simulateTM`. The argument `rest` is the part of the tape
at and after the head, so reading past the end of the input (the JS
expression tape[head] ?? blank) is the `[]` case. A missing transition
entry leaves the JS simulator with an undefined state and a subsequent
fault; that fault is modelled as `none`. -/
def simLoop (tm : TM) (tape : List Char) :
    List Char → Nat → Nat → List TMConfig → Option (String × List TMConfig)
  | [], head, state, configs =>
      let decision := if state ∈ tm.finals then "ACCEPT" else "REJECT"
      some (decision, configs ++ [⟨state, tape, head, .halt decision⟩])
  | c :: rest, head, state, configs =>
      if c = tm.blank then
        let decision := if state ∈ tm.finals then "ACCEPT" else "REJECT"
        some (decision, configs ++ [⟨state, tape, head, .halt decision⟩])
      else
        match alookup tm.dfaTransitions state with
        | none => none
        | some row =>
          match alookup row c with
          | none => none
          | some nxt =>
            simLoop tm tape rest (head + 1) nxt
              (configs ++ [⟨state, tape, head, .read c nxt⟩])

/-- The simulator `simulateTM` of the source: start at head 0 in the TM
start state, log the Start entry, then run the loop. -/
def simulateTM (tm : TM) (input : List Char) : Option (String × List TMConfig) :=
  simLoop tm input input 0 tm.start [⟨tm.start, input, 0, .start⟩]

/-- Two-level lookup in a transition table (the JS expression
transitions[state][symbol]). -/
def deltaT (trans : List (Nat × List (Char × Nat))) (s : Nat) (c : Char) :
    Option Nat :=
  match alookup trans s with
  | none => none
  | some row => alookup row c

/-- One-step DFA transition lookup. -/
def dfaDelta (d : DFA) (s : Nat) (c : Char) : Option Nat :=
  deltaT d.transitions s c

/-- Iterated transition function of the DFA on a word. -/
def dfaDeltaStar (d : DFA) (s : Nat) : List Char → Option Nat
  | [] => some s
  | c :: cs =>
    match dfaDelta d s c with
    | none => none
    | some t => dfaDeltaStar d t cs

/-- Inner loop of the emptiness checker: explore, from the row of the
current state, the transition for every alphabet symbol; enqueue every
yet-unvisited target, marking it visited first. The JS Set is modelled as
a duplicate-free list, the queue as a list consumed at the front. A
missing symbol entry would leave the JS checker with an undefined value
and a later fault; that is modelled as `none`. -/
def exploreSyms (row : List (Char × Nat)) :
    List Char → List Nat → List Nat → Option (List Nat × List Nat)
  | [], visited, queue => some (visited, queue)
  | sym :: syms, visited, queue =>
    match alookup row sym with
    | none => none
    | some nxt =>
      if nxt ∈ visited then exploreSyms row syms visited queue
      else exploreSyms row syms (visited ++ [nxt]) (queue ++ [nxt])

/-- Main loop of `dfaRecognizesEmpty`: dequeue a state; answer false on a
final state; otherwise explore its row and continue. The loop of the
source terminates because the visited set only grows inside a finite
universe; the model makes that explicit through a fuel argument, with
`none` standing for fuel exhaustion (and for the fault after a failed
lookup). The termination theorem shows the fuel below never runs out. -/
def bfsLoop (finals : List Nat) (trans : List (Nat × List (Char × Nat)))
    (alpha : List Char) : Nat → List Nat → List Nat → Option Bool
  | 0, _, _ => none
  | fuel + 1, queue, visited =>
    match queue with
    | [] => some true
    | state :: rest =>
      if state ∈ finals then some false
      else
        match alookup trans state with
        | none => none
        | some row =>
          match exploreSyms row alpha visited rest with
          | none => none
          | some (v2, q2) => bfsLoop finals trans alpha fuel q2 v2

/-- Every transition target appearing in a table, in order. -/
def targetsList (trans : List (Nat × List (Char × Nat))) : List Nat :=
  trans.foldr (fun p acc => p.2.map Prod.snd ++ acc) []

/-- Fuel that the termination theorem proves sufficient: one unit per
possible visited node (start or some transition target) plus one for the
final empty-queue check. Computed from the transition table only. -/
def bfsFuel (trans : List (Nat × List (Char × Nat))) : Nat :=
  (targetsList trans).length + 2

/-- The emptiness checker `dfaRecognizesEmpty` of the source: BFS from the
start state over the transition graph. Only the start, finals,
transitions and alphabet fields are read (the source destructures exactly
these four). -/
def dfaRecognizesEmpty (dfa : DFA) : Option Bool :=
  bfsLoop dfa.finals dfa.transitions dfa.alphabet
    (bfsFuel dfa.transitions) [dfa.start] [dfa.start]

/-- One edge of the transition graph: some alphabet symbol moves x to y. -/
def EdgeT (trans : List (Nat × List (Char × Nat))) (alpha : List Char)
    (x y : Nat) : Prop :=
  ∃ sym ∈ alpha, deltaT trans x sym = some y

/-- Reachability in the transition graph of a DFA from its start state. -/
def ReachableDFA (d : DFA) : Nat → Prop :=
  Relation.ReflTransGen (EdgeT d.transitions d.alphabet) d.start

/-- Instrumented copy of `bfsLoop` that also records, in order, every
state dequeued by the loop. Used only to state and prove that no state is
ever dequeued twice; `bfsLoopTr_fst` ties it back to `bfsLoop`. -/
def bfsLoopTr (finals : List Nat) (trans : List (Nat × List (Char × Nat)))
    (alpha : List Char) :
    Nat → List Nat → List Nat → List Nat → Option Bool × List Nat
  | 0, _, _, tr => (none, tr)
  | fuel + 1, queue, visited, tr =>
    match queue with
    | [] => (some true, tr)
    | state :: rest =>
      if state ∈ finals then (some false, tr ++ [state])
      else
        match alookup trans state with
        | none => (none, tr ++ [state])
        | some row =>
          match exploreSyms row alpha visited rest with
          | none => (none, tr ++ [state])
          | some (v2, q2) =>
            bfsLoopTr finals trans alpha fuel q2 v2 (tr ++ [state])

/-- The instrumented run of the emptiness checker on a DFA, from the
initial queue and visited set. -/
def dfaTraceRun (d : DFA) : Option Bool × List Nat :=
  bfsLoopTr d.finals d.transitions d.alphabet (bfsFuel d.transitions)
    [d.start] [d.start] []

/-- Progression state of the enumerator `enumerateDFAs` of the source (the
state captured by its generator closure): current state count, the
little-endian digit vector encoding the transition function, and the
bitmask of the current final set. -/
structure EnumCursor where
  n : Nat
  digits : List Nat
  mask : Nat
  deriving DecidableEq

/-- The incrementDigits closure of the source: bump the least significant
digit; on reaching n reset it and carry; `none` models the false return
when every digit overflows. -/
def incrementDigits (n : Nat) : List Nat → Option (List Nat)
  | [] => none
  | d :: ds =>
    if d + 1 < n then some ((d + 1) :: ds)
    else
      match incrementDigits n ds with
      | none => none
      | some ds2 => some (0 :: ds2)

/-- Initial enumerator state: state count 1, all-zero digit vector, empty
final mask. -/
def initCursor (as : List Char) : EnumCursor :=
  ⟨1, List.replicate (1 * as.length) 0, 0⟩

/-- One advance of the enumerator loop nest: bump the final mask; when it
overflows, bump the digit vector; when that also overflows, move to the
next state count with a fresh all-zero digit vector. -/
def nextCursor (as : List Char) (c : EnumCursor) : EnumCursor :=
  if c.mask + 1 < 2 ^ c.n then ⟨c.n, c.digits, c.mask + 1⟩
  else
    match incrementDigits c.n c.digits with
    | some ds => ⟨c.n, ds, 0⟩
    | none => ⟨c.n + 1, List.replicate ((c.n + 1) * as.length) 0, 0⟩

/-- Transition table built from the digit vector: the digit at position
s * symCount + k is the target of state s on symbol alphabet[k] (the
row-building loops of the source). -/
def buildTransitions (as : List Char) (n : Nat) (digits : List Nat) :
    List (Nat × List (Char × Nat)) :=
  (List.range n).map fun s =>
    (s, as.zip ((digits.drop (s * as.length)).take as.length))

/-- The DFA yielded by the source for the current enumerator state:
states 0..n-1, start fixed at 0, finals the set bits of the mask in
increasing order, transitions decoded from the digit vector. -/
def produceDFA (as : List Char) (c : EnumCursor) : DFA :=
  { states := List.range c.n
    alphabet := as
    start := 0
    finals := (List.range c.n).filter (fun s => c.mask.testBit s)
    transitions := buildTransitions as c.n c.digits }

/-- Enumerator state after i advances. -/
def cursorAt (as : List Char) : Nat → EnumCursor
  | 0 => initCursor as
  | i + 1 => nextCursor as (cursorAt as i)

/-- The enumerator of the source as a sequence: the DFA yielded at
position i. -/
def enumerateDFAs (as : List Char) (i : Nat) : DFA :=
  produceDFA as (cursorAt as i)

/-- Cursor states actually reached by the enumeration: state count at
least 1, digit vector of width n times the symbol count with every digit
below n, mask below 2 to the n. -/
def CanonCursor (as : List Char) (c : EnumCursor) : Prop :=
  1 ≤ c.n ∧ c.digits.length = c.n * as.length ∧
    (∀ dg ∈ c.digits, dg < c.n) ∧ c.mask < 2 ^ c.n

instance (as : List Char) (c : EnumCursor) : Decidable (CanonCursor as c) := by
  unfold CanonCursor
  infer_instance

/-- Value of a little-endian digit vector in base n. -/
def digitsVal (n : Nat) : List Nat → Nat
  | [] => 0
  | d :: ds => d + n * digitsVal n ds

/-- Number of DFAs yielded for one state count. -/
def blockSize (as : List Char) (n : Nat) : Nat :=
  n ^ (n * as.length) * 2 ^ n

/-- Number of DFAs yielded before state count n + 1 starts (the sum of
the block sizes of state counts 1..n). -/
def offsetN (as : List Char) : Nat → Nat
  | 0 => 0
  | n + 1 => offsetN as n + blockSize as (n + 1)

/-- Position in the overall sequence at which a cursor state is used. -/
def cidx (as : List Char) (c : EnumCursor) : Nat :=
  offsetN as (c.n - 1) + digitsVal c.n c.digits * 2 ^ c.n + c.mask

/-- A structurally valid DFA whose alphabet contains the underscore
character that the converter uses as blank. -/
def underscoreDFA : DFA :=
  { states := [0, 1]
    alphabet := ['_']
    start := 0
    finals := [1]
    transitions := [(0, [('_', 1)]), (1, [('_', 1)])] }

/-- A one-state valid DFA over the underscore alphabet. -/
def underscoreLoopDFA : DFA :=
  { states := [0]
    alphabet := ['_']
    start := 0
    finals := []
    transitions := [(0, [('_', 0)])] }

/-- A structurally valid DFA whose start state is 1; no enumerator output
ever has this shape. -/
def startOneDFA : DFA :=
  { states := [0, 1]
    alphabet := ['a', 'b']
    start := 1
    finals := [1]
    transitions := [(0, [('a', 1), ('b', 0)]), (1, [('a', 1), ('b', 0)])] }

/-- The first DFA of the enumeration: one state, no finals. -/
def dfaOneNoFinal : DFA :=
  { states := [0]
    alphabet := ['a', 'b']
    start := 0
    finals := []
    transitions := [(0, [('a', 0), ('b', 0)])] }

/-- The second DFA of the enumeration: one state, which is final. -/
def dfaOneFinal : DFA :=
  { states := [0]
    alphabet := ['a', 'b']
    start := 0
    finals := [0]
    transitions := [(0, [('a', 0), ('b', 0)])] }

/-- The empty-language example with an unrelated states list; it agrees
with emptyDFA on every field the emptiness checker reads. -/
def emptyDFAWide : DFA :=
  { states := [0, 1, 5, 7]
    alphabet := ['a', 'b']
    start := 0
    finals := []
    transitions := [(0, [('a', 1), ('b', 1)]), (1, [('a', 1), ('b', 1)])] }

lemma checkRow_iff (d : DFA) (row : List (Char × Nat)) :
    checkRow d row = true ↔
      ∀ sym ∈ d.alphabet, ∃ t, alookup row sym = some t ∧ t ∈ d.states := by
  simp only [checkRow, List.all_eq_true]
  constructor
  · intro h sym hsym
    have := h sym hsym
    cases hl : alookup row sym with
    | none => rw [hl] at this; exact absurd this (by simp)
    | some t => rw [hl] at this; exact ⟨t, rfl, by simpa using this⟩
  · intro h sym hsym
    obtain ⟨t, hl, ht⟩ := h sym hsym
    rw [hl]
    simpa using ht

lemma checkState_iff (d : DFA) (s : Nat) :
    checkState d s = true ↔
      ∃ row, alookup d.transitions s = some row ∧
        ∀ sym ∈ d.alphabet, ∃ t, alookup row sym = some t ∧ t ∈ d.states := by
  unfold checkState
  cases hl : alookup d.transitions s with
  | none => simp
  | some row => simpa using (checkRow_iff d row)

/-- The validator returns 1 exactly on the well-formed DFAs. -/
lemma validateDFA_eq_one_iff (d : DFA) :
    validateDFA d = 1 ↔ WellFormedDFA d := by
  unfold validateDFA WellFormedDFA
  by_cases h1 : d.start ∈ d.states
  · rw [if_pos h1]
    by_cases h2 : (d.finals.all (fun f => decide (f ∈ d.states))) = true
    · rw [if_pos h2]
      by_cases h3 : (d.states.all (checkState d)) = true
      · rw [if_pos h3]
        refine iff_of_true rfl ⟨h1, ?_, ?_⟩
        · intro f hf; simpa using (List.all_eq_true.mp h2 f hf)
        · intro s hs; exact (checkState_iff d s).mp (List.all_eq_true.mp h3 s hs)
      · rw [if_neg h3]
        refine iff_of_false (by decide) (fun hw => h3 ?_)
        exact List.all_eq_true.mpr fun s hs => (checkState_iff d s).mpr (hw.2.2 s hs)
    · rw [if_neg h2]
      refine iff_of_false (by decide) (fun hw => h2 ?_)
      exact List.all_eq_true.mpr fun f hf => by simpa using hw.2.1 f hf
  · rw [if_neg h1]
    exact iff_of_false (by decide) (fun hw => h1 hw.1)

/-- The validator only ever returns 0 or 1. -/
lemma validateDFA_zero_or_one (d : DFA) :
    validateDFA d = 0 ∨ validateDFA d = 1 := by
  unfold validateDFA
  split <;> [skip; exact Or.inl rfl]
  split <;> [skip; exact Or.inl rfl]
  split <;> [exact Or.inr rfl; exact Or.inl rfl]

lemma validateDFA_eq_zero_iff (d : DFA) :
    validateDFA d = 0 ↔ ¬ WellFormedDFA d := by
  rcases validateDFA_zero_or_one d with h | h
  · rw [h]
    refine iff_of_true rfl (fun hw => ?_)
    have h1 := (validateDFA_eq_one_iff d).mpr hw
    rw [h] at h1
    exact absurd h1 (by decide)
  · rw [h]
    exact iff_of_false (by decide) (fun hn => hn ((validateDFA_eq_one_iff d).mp h))

/-- A well-formed DFA has a successful transition lookup, landing in a
known state, for every known state and alphabet symbol. -/
lemma WellFormedDFA.delta_total {d : DFA} (hw : WellFormedDFA d)
    {s : Nat} (hs : s ∈ d.states) {c : Char} (hc : c ∈ d.alphabet) :
    ∃ t, dfaDelta d s c = some t ∧ t ∈ d.states := by
  obtain ⟨row, hrow, hall⟩ := hw.2.2 s hs
  obtain ⟨t, hl, ht⟩ := hall c hc
  exact ⟨t, by simp [dfaDelta, deltaT, hrow, hl], ht⟩

/-- Main simulation lemma: on a well-formed DFA whose alphabet avoids the
blank symbol, the loop consumes the whole remaining input, appends one
read entry per symbol and one halting entry, and decides by membership of
the reached state in finals. -/
lemma simLoop_run (d : DFA) (hw : WellFormedDFA d) (hb : '_' ∉ d.alphabet)
    (tape : List Char) :
    ∀ (rest : List Char) (state : Nat) (head : Nat) (configs : List TMConfig),
      state ∈ d.states → (∀ c ∈ rest, c ∈ d.alphabet) →
      ∃ (q : Nat) (mids : List TMConfig),
        dfaDeltaStar d state rest = some q ∧ q ∈ d.states ∧
        simLoop (convertDFAtoTM d) tape rest head state configs =
          some (if q ∈ d.finals then "ACCEPT" else "REJECT",
            configs ++ mids ++
              [⟨q, tape, head + rest.length,
                .halt (if q ∈ d.finals then "ACCEPT" else "REJECT")⟩]) ∧
        mids.length = rest.length ∧
        ∀ e ∈ mids, ∃ c nx, e.action = TMAction.read c nx := by
  intro rest
  induction rest with
  | nil =>
    intro state head configs hst _
    refine ⟨state, [], rfl, hst, ?_, rfl, by simp⟩
    simp [simLoop, convertDFAtoTM]
  | cons c rest ih =>
    intro state head configs hst hin
    have hc : c ∈ d.alphabet := hin c (List.mem_cons_self c rest)
    have hcb : c ≠ '_' := fun hh => hb (hh ▸ hc)
    obtain ⟨t, hdel, htst⟩ := hw.delta_total hst hc
    obtain ⟨row, hrow, -⟩ := hw.2.2 state hst
    have hlk : alookup row c = some t := by
      simpa [dfaDelta, deltaT, hrow] using hdel
    obtain ⟨q, mids, hds, hqst, hsim, hlen, hmid⟩ :=
      ih t (head + 1) (configs ++ [⟨state, tape, head, .read c t⟩]) htst
        (fun x hx => hin x (List.mem_cons_of_mem c hx))
    refine ⟨q, ⟨state, tape, head, .read c t⟩ :: mids, ?_, hqst, ?_, ?_, ?_⟩
    · simp [dfaDeltaStar, hdel, hds]
    · simp only [convertDFAtoTM] at hsim ⊢
      simp only [simLoop, if_neg hcb, hrow, hlk]
      rw [hsim]
      have harith : head + 1 + rest.length = head + (c :: rest).length := by
        simp only [List.length_cons]; omega
      rw [harith]
      simp [List.append_assoc]
    · simp [hlen]
    · intro e he
      rcases List.mem_cons.mp he with he | he
      · exact ⟨c, t, by rw [he]⟩
      · exact hmid e he

/-- Full-run corollary of the simulation lemma, phrased on `simulateTM`. -/
lemma simulateTM_run (d : DFA) (hw : WellFormedDFA d) (hb : '_' ∉ d.alphabet)
    (input : List Char) (hin : ∀ c ∈ input, c ∈ d.alphabet) :
    ∃ (q : Nat) (mids : List TMConfig),
      dfaDeltaStar d d.start input = some q ∧
      simulateTM (convertDFAtoTM d) input =
        some (if q ∈ d.finals then "ACCEPT" else "REJECT",
          ⟨d.start, input, 0, .start⟩ :: mids ++
            [⟨q, input, input.length,
              .halt (if q ∈ d.finals then "ACCEPT" else "REJECT")⟩]) ∧
      mids.length = input.length ∧
      ∀ e ∈ mids, ∃ c nx, e.action = TMAction.read c nx := by
  obtain ⟨q, mids, hds, hqst, hsim, hlen, hmid⟩ :=
    simLoop_run d hw hb input input d.start 0
      [⟨d.start, input, 0, .start⟩] hw.1 hin
  refine ⟨q, mids, hds, ?_, hlen, hmid⟩
  simp only [convertDFAtoTM] at hsim ⊢
  simp only [simulateTM]
  rw [hsim]
  simp

lemma alookup_mem {α β : Type} [DecidableEq α] :
    ∀ {l : List (α × β)} {a : α} {b : β}, alookup l a = some b → (a, b) ∈ l := by
  intro l
  induction l with
  | nil => intro a b h; exact absurd h (by simp [alookup])
  | cons p rest ih =>
    intro a b h
    rw [alookup] at h
    by_cases ha : a = p.1
    · rw [if_pos ha] at h
      injection h with h
      rw [ha, ← h]
      cases p
      simp
    · rw [if_neg ha] at h
      exact List.mem_cons_of_mem _ (ih h)

lemma mem_targetsList {trans : List (Nat × List (Char × Nat))}
    {s : Nat} {c : Char} {t : Nat} (h : deltaT trans s c = some t) :
    t ∈ targetsList trans := by
  rw [deltaT] at h
  cases hrow : alookup trans s with
  | none => rw [hrow] at h; exact absurd h (by simp)
  | some row =>
    rw [hrow] at h
    have hpr : (s, row) ∈ trans := alookup_mem hrow
    have hct : (c, t) ∈ row := alookup_mem h
    have htr : t ∈ row.map Prod.snd := List.mem_map.mpr ⟨(c, t), hct, rfl⟩
    clear hrow h
    induction trans with
    | nil => exact absurd hpr (by simp)
    | cons p rest ih =>
      rw [targetsList, List.foldr_cons, List.mem_append]
      rcases List.mem_cons.mp hpr with rfl | hpr
      · exact Or.inl htr
      · exact Or.inr (ih hpr)

/-- Complete characterization of a successful explore pass: the visited
list and the queue both grow by the same list of fresh targets, each one
a looked-up target of a processed symbol, and after the pass every
processed symbol has a target in the new visited list. -/
lemma exploreSyms_eq (row : List (Char × Nat)) :
    ∀ (syms : List Char) (v q : List Nat) (r : List Nat × List Nat),
      exploreSyms row syms v q = some r →
      ∃ news, r = (v ++ news, q ++ news) ∧ news.Nodup ∧
        (∀ x ∈ news, x ∉ v) ∧
        (∀ x ∈ news, ∃ sym ∈ syms, alookup row sym = some x) ∧
        (∀ sym ∈ syms, ∃ t, alookup row sym = some t ∧ t ∈ v ++ news) := by
  intro syms
  induction syms with
  | nil =>
    intro v q r h
    rw [exploreSyms] at h
    injection h with h
    subst h
    exact ⟨[], by simp, by simp, by simp, by simp, by simp⟩
  | cons sym syms ih =>
    intro v q r h
    rw [exploreSyms] at h
    split at h
    · exact absurd h (by simp)
    · rename_i nxt hlk
      by_cases hv : nxt ∈ v
      · rw [if_pos hv] at h
        obtain ⟨news, hr, hnd, hfresh, hsrc, hcov⟩ := ih v q r h
        refine ⟨news, hr, hnd, hfresh, ?_, ?_⟩
        · intro x hx
          obtain ⟨s2, hs2, hl2⟩ := hsrc x hx
          exact ⟨s2, List.mem_cons_of_mem _ hs2, hl2⟩
        · intro s2 hs2
          rcases List.mem_cons.mp hs2 with rfl | hs2
          · exact ⟨nxt, hlk, List.mem_append.mpr (Or.inl hv)⟩
          · exact hcov s2 hs2
      · rw [if_neg hv] at h
        obtain ⟨news, hr, hnd, hfresh, hsrc, hcov⟩ := ih (v ++ [nxt]) (q ++ [nxt]) r h
        have hnn : nxt ∉ news := fun hc =>
          hfresh nxt hc (List.mem_append.mpr (Or.inr (by simp)))
        refine ⟨nxt :: news, ?_, List.nodup_cons.mpr ⟨hnn, hnd⟩, ?_, ?_, ?_⟩
        · rw [hr]; simp
        · intro x hx
          rcases List.mem_cons.mp hx with rfl | hx
          · exact hv
          · intro hc
            exact hfresh x hx (List.mem_append.mpr (Or.inl hc))
        · intro x hx
          rcases List.mem_cons.mp hx with rfl | hx
          · exact ⟨sym, List.mem_cons_self _ _, hlk⟩
          · obtain ⟨s2, hs2, hl2⟩ := hsrc x hx
            exact ⟨s2, List.mem_cons_of_mem _ hs2, hl2⟩
        · intro s2 hs2
          rcases List.mem_cons.mp hs2 with rfl | hs2
          · exact ⟨nxt, hlk, by simp⟩
          · obtain ⟨t, hl2, ht⟩ := hcov s2 hs2
            refine ⟨t, hl2, ?_⟩
            rcases List.mem_append.mp ht with ht | ht
            · rcases List.mem_append.mp ht with ht | ht
              · exact List.mem_append.mpr (Or.inl ht)
              · simp only [List.mem_singleton] at ht
                exact List.mem_append.mpr (Or.inr (ht ▸ List.mem_cons_self _ _))
            · exact List.mem_append.mpr (Or.inr (List.mem_cons_of_mem _ ht))

/-- A successful explore pass over symbols whose lookups all succeed. -/
lemma exploreSyms_isSome (row : List (Char × Nat)) :
    ∀ (syms : List Char) (v q : List Nat),
      (∀ sym ∈ syms, ∃ t, alookup row sym = some t) →
      ∃ r, exploreSyms row syms v q = some r := by
  intro syms
  induction syms with
  | nil => intro v q _; exact ⟨(v, q), rfl⟩
  | cons sym syms ih =>
    intro v q h
    obtain ⟨t, hl⟩ := h sym (List.mem_cons_self _ _)
    rw [exploreSyms, hl]
    show ∃ r, (if t ∈ v then exploreSyms row syms v q
      else exploreSyms row syms (v ++ [t]) (q ++ [t])) = some r
    by_cases hv : t ∈ v
    · rw [if_pos hv]
      exact ih v q (fun s hs => h s (List.mem_cons_of_mem _ hs))
    · rw [if_neg hv]
      exact ih (v ++ [t]) (q ++ [t]) (fun s hs => h s (List.mem_cons_of_mem _ hs))

lemma deltaT_of_lookup {trans : List (Nat × List (Char × Nat))}
    {row : List (Char × Nat)} {s : Nat} {c : Char} {t : Nat}
    (hrow : alookup trans s = some row) (h : alookup row c = some t) :
    deltaT trans s c = some t := by
  unfold deltaT
  rw [hrow]
  exact h

/-- If the loop answers false, a final state is reachable (every queued
state is assumed reachable, as the invariant maintains). -/
lemma bfsLoop_false_sound (finals : List Nat)
    (trans : List (Nat × List (Char × Nat))) (alpha : List Char) (s0 : Nat) :
    ∀ (fuel : Nat) (q v : List Nat),
      (∀ x ∈ q, Relation.ReflTransGen (EdgeT trans alpha) s0 x) →
      bfsLoop finals trans alpha fuel q v = some false →
      ∃ x, Relation.ReflTransGen (EdgeT trans alpha) s0 x ∧ x ∈ finals := by
  intro fuel
  induction fuel with
  | zero => intro q v _ h; exact absurd h (by rw [bfsLoop]; simp)
  | succ fuel ih =>
    intro q v hq h
    cases q with
    | nil => rw [bfsLoop] at h; exact absurd h (by simp)
    | cons state rest =>
      rw [bfsLoop] at h
      by_cases hf : state ∈ finals
      · exact ⟨state, hq state (List.mem_cons_self _ _), hf⟩
      · rw [if_neg hf] at h
        split at h
        · exact absurd h (by simp)
        · rename_i row hrow
          split at h
          · exact absurd h (by simp)
          · rename_i v2 q2 hex
            obtain ⟨news, hpair, -, -, hsrc, -⟩ :=
              exploreSyms_eq row alpha v rest _ hex
            injection hpair with hv2 hq2
            refine ih q2 v2 ?_ h
            intro x hx
            rw [hq2] at hx
            rcases List.mem_append.mp hx with hx | hx
            · exact hq x (List.mem_cons_of_mem _ hx)
            · obtain ⟨sym, hsym, hl⟩ := hsrc x hx
              exact Relation.ReflTransGen.tail
                (hq state (List.mem_cons_self _ _))
                ⟨sym, hsym, deltaT_of_lookup hrow hl⟩

/-- If the loop answers true, no reachable state is final. The
hypotheses are the loop invariant: the start state is visited, the queue
lists distinct visited states, and every visited state that is no longer
queued is nonfinal with all its successors visited. -/
lemma bfsLoop_true_sound (finals : List Nat)
    (trans : List (Nat × List (Char × Nat))) (alpha : List Char) (s0 : Nat) :
    ∀ (fuel : Nat) (q v : List Nat),
      s0 ∈ v → q.Nodup → (∀ x ∈ q, x ∈ v) →
      (∀ x ∈ v, x ∉ q → x ∉ finals ∧
        ∀ sym ∈ alpha, ∀ t, deltaT trans x sym = some t → t ∈ v) →
      bfsLoop finals trans alpha fuel q v = some true →
      ∀ z, Relation.ReflTransGen (EdgeT trans alpha) s0 z → z ∉ finals := by
  intro fuel
  induction fuel with
  | zero => intro q v _ _ _ _ h; exact absurd h (by rw [bfsLoop]; simp)
  | succ fuel ih =>
    intro q v hs0 hqnd hqv hcl h
    cases q with
    | nil =>
      intro z hz
      have hzv : z ∈ v := by
        induction hz with
        | refl => exact hs0
        | tail _ e ihz =>
          rename_i b c _
          obtain ⟨sym, hsym, hdel⟩ := e
          exact (hcl b ihz (by simp)).2 sym hsym c hdel
      exact (hcl z hzv (by simp)).1
    | cons state rest =>
      rw [bfsLoop] at h
      by_cases hf : state ∈ finals
      · rw [if_pos hf] at h; exact absurd h (by simp)
      · rw [if_neg hf] at h
        split at h
        · exact absurd h (by simp)
        · rename_i row hrow
          split at h
          · exact absurd h (by simp)
          · rename_i v2 q2 hex
            obtain ⟨news, hpair, hnewnd, hfresh, hsrc, hcov⟩ :=
              exploreSyms_eq row alpha v rest _ hex
            injection hpair with hv2 hq2
            subst hv2; subst hq2
            have hqnd' : (state :: rest).Nodup := hqnd
            rw [List.nodup_cons] at hqnd'
            refine ih (rest ++ news) (v ++ news)
              (List.mem_append.mpr (Or.inl hs0)) ?_ ?_ ?_ h
            · rw [List.nodup_append]
              exact ⟨hqnd'.2, hnewnd, fun x hx hx2 =>
                hfresh x hx2 (hqv x (List.mem_cons_of_mem _ hx))⟩
            · intro x hx
              rcases List.mem_append.mp hx with hx | hx
              · exact List.mem_append.mpr
                  (Or.inl (hqv x (List.mem_cons_of_mem _ hx)))
              · exact List.mem_append.mpr (Or.inr hx)
            · intro x hxv hxq
              rcases List.mem_append.mp hxv with hxv | hxv
              · by_cases hxs : x = state
                · subst hxs
                  refine ⟨hf, ?_⟩
                  intro sym hsym t hdel
                  obtain ⟨t2, hl2, ht2⟩ := hcov sym hsym
                  have : deltaT trans x sym = some t2 :=
                    deltaT_of_lookup hrow hl2
                  rw [this] at hdel
                  injection hdel with hdel
                  exact hdel ▸ ht2
                · have hxq0 : x ∉ state :: rest := by
                    intro hc
                    rcases List.mem_cons.mp hc with hc | hc
                    · exact hxs hc
                    · exact hxq (List.mem_append.mpr (Or.inl hc))
                  obtain ⟨h1, h2⟩ := hcl x hxv hxq0
                  exact ⟨h1, fun sym hsym t hdel =>
                    List.mem_append.mpr (Or.inl (h2 sym hsym t hdel))⟩
              · exact absurd (List.mem_append.mpr (Or.inr hxv)) hxq

lemma length_le_dedup_of_nodup_subset {v L : List Nat}
    (hnd : v.Nodup) (hsub : ∀ x ∈ v, x ∈ L) :
    v.length ≤ L.dedup.length := by
  have h1 : v.toFinset.card = v.length := List.toFinset_card_of_nodup hnd
  have h2 : v.toFinset ⊆ L.toFinset := fun x hx =>
    List.mem_toFinset.mpr (hsub x (List.mem_toFinset.mp hx))
  have h3 := Finset.card_le_card h2
  rw [h1, List.card_toFinset] at h3
  exact h3

/-- Termination of the BFS loop: with totality of the transition table on
a state set containing all visited states, and with more fuel than the
measure (unvisited nodes of the universe L plus queued states), the loop
answers. Each iteration dequeues one state and enqueues only fresh
states, so the measure drops by exactly one per iteration. -/
lemma bfsLoop_isSome (finals : List Nat)
    (trans : List (Nat × List (Char × Nat))) (alpha : List Char)
    (states : List Nat)
    (htot : ∀ x ∈ states, ∃ row, alookup trans x = some row ∧
      ∀ sym ∈ alpha, ∃ t, alookup row sym = some t ∧ t ∈ states)
    (L : List Nat)
    (hLt : ∀ x ∈ targetsList trans, x ∈ L) :
    ∀ (fuel : Nat) (q v : List Nat),
      (∀ x ∈ q, x ∈ v) → v.Nodup →
      (∀ x ∈ v, x ∈ states) → (∀ x ∈ v, x ∈ L) →
      L.dedup.length - v.length + q.length < fuel →
      ∃ b, bfsLoop finals trans alpha fuel q v = some b := by
  intro fuel
  induction fuel with
  | zero => intro q v _ _ _ _ hm; omega
  | succ fuel ih =>
    intro q v hqv hvnd hvs hvL hm
    cases q with
    | nil => exact ⟨true, by rw [bfsLoop]⟩
    | cons state rest =>
      rw [bfsLoop]
      by_cases hf : state ∈ finals
      · rw [if_pos hf]; exact ⟨false, rfl⟩
      · rw [if_neg hf]
        obtain ⟨row, hrow, hrtot⟩ :=
          htot state (hvs state (hqv state (List.mem_cons_self _ _)))
        obtain ⟨r, hex⟩ := exploreSyms_isSome row alpha v rest
          (fun sym hsym => (hrtot sym hsym).imp fun t ht => ht.1)
        obtain ⟨news, hpair, hnewnd, hfresh, hsrc, -⟩ :=
          exploreSyms_eq row alpha v rest r hex
        subst hpair
        simp only [hrow, hex]
        have hnews_states : ∀ x ∈ news, x ∈ states := by
          intro x hx
          obtain ⟨sym, hsym, hl⟩ := hsrc x hx
          obtain ⟨t, hl2, ht⟩ := hrtot sym hsym
          rw [hl] at hl2
          injection hl2 with hl2
          exact hl2 ▸ ht
        have hnews_L : ∀ x ∈ news, x ∈ L := by
          intro x hx
          obtain ⟨sym, hsym, hl⟩ := hsrc x hx
          exact hLt x (mem_targetsList (deltaT_of_lookup hrow hl))
        have hv2nd : (v ++ news).Nodup := by
          rw [List.nodup_append]
          exact ⟨hvnd, hnewnd, fun x hx hx2 => hfresh x hx2 hx⟩
        have hv2len : (v ++ news).length ≤ L.dedup.length :=
          length_le_dedup_of_nodup_subset hv2nd (fun x hx => by
            rcases List.mem_append.mp hx with hx | hx
            · exact hvL x hx
            · exact hnews_L x hx)
        refine ih (rest ++ news) (v ++ news) ?_ hv2nd ?_ ?_ ?_
        · intro x hx
          rcases List.mem_append.mp hx with hx | hx
          · exact List.mem_append.mpr
              (Or.inl (hqv x (List.mem_cons_of_mem _ hx)))
          · exact List.mem_append.mpr (Or.inr hx)
        · intro x hx
          rcases List.mem_append.mp hx with hx | hx
          · exact hvs x hx
          · exact hnews_states x hx
        · intro x hx
          rcases List.mem_append.mp hx with hx | hx
          · exact hvL x hx
          · exact hnews_L x hx
        · have hl1 : (v ++ news).length = v.length + news.length := by simp
          have hl2 : (rest ++ news).length = rest.length + news.length := by simp
          have hl3 : (state :: rest).length = rest.length + 1 := by simp
          omega

/-- A well-formed DFA gives the totality hypothesis of the termination
lemma, in the form used by the BFS lemmas. -/
lemma WellFormedDFA.trans_total {d : DFA} (hw : WellFormedDFA d) :
    ∀ x ∈ d.states, ∃ row, alookup d.transitions x = some row ∧
      ∀ sym ∈ d.alphabet, ∃ t, alookup row sym = some t ∧ t ∈ d.states :=
  hw.2.2

/-- On a well-formed DFA the emptiness checker always answers. -/
lemma dfaRecognizesEmpty_isSome (d : DFA) (hw : WellFormedDFA d) :
    ∃ b, dfaRecognizesEmpty d = some b := by
  have hL : ∀ x ∈ targetsList d.transitions,
      x ∈ d.start :: targetsList d.transitions :=
    fun x hx => List.mem_cons_of_mem _ hx
  refine bfsLoop_isSome d.finals d.transitions d.alphabet d.states
    hw.trans_total (d.start :: targetsList d.transitions) hL
    (bfsFuel d.transitions) [d.start] [d.start]
    (by simp) (by simp) ?_ (by simp) ?_
  · intro x hx
    simp only [List.mem_singleton] at hx
    exact hx ▸ hw.1
  · have h1 : (d.start :: targetsList d.transitions).dedup.length ≤
        (d.start :: targetsList d.transitions).length :=
      List.Sublist.length_le (List.dedup_sublist _)
    have h2 : (d.start :: targetsList d.transitions).length =
        (targetsList d.transitions).length + 1 := by simp
    rw [bfsFuel]
    simp only [List.length_singleton]
    omega

/-- On a well-formed DFA the checker answers true exactly when no
reachable state is final. -/
lemma dfaRecognizesEmpty_true_iff (d : DFA) (hw : WellFormedDFA d) :
    dfaRecognizesEmpty d = some true ↔
      ∀ z, ReachableDFA d z → z ∉ d.finals := by
  constructor
  · intro h
    refine bfsLoop_true_sound d.finals d.transitions d.alphabet d.start
      (bfsFuel d.transitions) [d.start] [d.start]
      (by simp) (by simp) (by simp) ?_ h
    intro x hx hxq
    simp only [List.mem_singleton] at hx
    exact absurd (hx ▸ List.mem_singleton_self d.start) (hx ▸ hxq)
  · intro hno
    obtain ⟨b, hb⟩ := dfaRecognizesEmpty_isSome d hw
    cases b with
    | true => exact hb
    | false =>
      obtain ⟨x, hx, hxf⟩ := bfsLoop_false_sound d.finals d.transitions
        d.alphabet d.start (bfsFuel d.transitions) [d.start] [d.start]
        (fun x hx => by
          simp only [List.mem_singleton] at hx
          exact hx ▸ Relation.ReflTransGen.refl) hb
      exact absurd hxf (hno x hx)

lemma bfsLoopTr_fst (finals : List Nat)
    (trans : List (Nat × List (Char × Nat))) (alpha : List Char) :
    ∀ (fuel : Nat) (q v tr : List Nat),
      (bfsLoopTr finals trans alpha fuel q v tr).1 =
        bfsLoop finals trans alpha fuel q v := by
  intro fuel
  induction fuel with
  | zero => intro q v tr; rw [bfsLoopTr, bfsLoop]
  | succ fuel ih =>
    intro q v tr
    cases q with
    | nil => rw [bfsLoopTr, bfsLoop]
    | cons state rest =>
      rw [bfsLoopTr, bfsLoop]
      by_cases hf : state ∈ finals
      · rw [if_pos hf, if_pos hf]
      · rw [if_neg hf, if_neg hf]
        cases hrow : alookup trans state with
        | none => simp only [hrow]
        | some row =>
          simp only [hrow]
          cases hex : exploreSyms row alpha v rest with
          | none => simp only [hex]
          | some r =>
            obtain ⟨v2, q2⟩ := r
            simp only [hex]
            exact ih q2 v2 (tr ++ [state])

/-- The dequeue record stays duplicate-free: a dequeued state is already
visited, and visited states are never enqueued again. -/
lemma bfsLoopTr_nodup (finals : List Nat)
    (trans : List (Nat × List (Char × Nat))) (alpha : List Char) :
    ∀ (fuel : Nat) (q v tr : List Nat),
      q.Nodup → (∀ x ∈ q, x ∈ v) → tr.Nodup →
      (∀ x ∈ tr, x ∈ v) → (∀ x ∈ tr, x ∉ q) →
      (bfsLoopTr finals trans alpha fuel q v tr).2.Nodup := by
  intro fuel
  induction fuel with
  | zero => intro q v tr _ _ h _ _; rw [bfsLoopTr]; exact h
  | succ fuel ih =>
    intro q v tr hqnd hqv htrnd htrv htrq
    cases q with
    | nil => rw [bfsLoopTr]; exact htrnd
    | cons state rest =>
      rw [bfsLoopTr]
      have hstv : state ∈ v := hqv state (List.mem_cons_self _ _)
      have htr2nd : (tr ++ [state]).Nodup := by
        rw [List.nodup_append]
        refine ⟨htrnd, List.nodup_singleton _, ?_⟩
        intro x hx hx2
        simp only [List.mem_singleton] at hx2
        exact htrq x hx (hx2 ▸ List.mem_cons_self _ _)
      by_cases hf : state ∈ finals
      · rw [if_pos hf]; exact htr2nd
      · rw [if_neg hf]
        cases hrow : alookup trans state with
        | none => simp only [hrow]; exact htr2nd
        | some row =>
          simp only [hrow]
          cases hex : exploreSyms row alpha v rest with
          | none => simp only [hex]; exact htr2nd
          | some r =>
            obtain ⟨v2, q2⟩ := r
            simp only [hex]
            obtain ⟨news, hpair, hnewnd, hfresh, -, -⟩ :=
              exploreSyms_eq row alpha v rest _ hex
            injection hpair with hv2 hq2
            subst hv2; subst hq2
            have hqnd' := List.nodup_cons.mp hqnd
            refine ih (rest ++ news) (v ++ news) (tr ++ [state]) ?_ ?_
              htr2nd ?_ ?_
            · rw [List.nodup_append]
              exact ⟨hqnd'.2, hnewnd, fun x hx hx2 =>
                hfresh x hx2 (hqv x (List.mem_cons_of_mem _ hx))⟩
            · intro x hx
              rcases List.mem_append.mp hx with hx | hx
              · exact List.mem_append.mpr
                  (Or.inl (hqv x (List.mem_cons_of_mem _ hx)))
              · exact List.mem_append.mpr (Or.inr hx)
            · intro x hx
              rcases List.mem_append.mp hx with hx | hx
              · exact List.mem_append.mpr (Or.inl (htrv x hx))
              · simp only [List.mem_singleton] at hx
                exact List.mem_append.mpr (Or.inl (hx ▸ hstv))
            · intro x hx hc
              have hxv : x ∈ v := by
                rcases List.mem_append.mp hx with hx | hx
                · exact htrv x hx
                · simp only [List.mem_singleton] at hx
                  exact hx ▸ hstv
              rcases List.mem_append.mp hc with hc | hc
              · rcases List.mem_append.mp hx with hx | hx
                · exact htrq x hx (List.mem_cons_of_mem _ hc)
                · simp only [List.mem_singleton] at hx
                  subst hx
                  exact hqnd'.1 hc
              · exact hfresh x hc hxv

lemma dfaTraceRun_fst (d : DFA) :
    (dfaTraceRun d).1 = dfaRecognizesEmpty d :=
  bfsLoopTr_fst d.finals d.transitions d.alphabet (bfsFuel d.transitions)
    [d.start] [d.start] []

lemma dfaTraceRun_nodup (d : DFA) : (dfaTraceRun d).2.Nodup := by
  refine bfsLoopTr_nodup d.finals d.transitions d.alphabet
    (bfsFuel d.transitions) [d.start] [d.start] []
    (by simp) (by simp) (by simp) (by simp) (by simp)

lemma digitsVal_replicate_zero (n : Nat) :
    ∀ k, digitsVal n (List.replicate k 0) = 0 := by
  intro k
  induction k with
  | zero => rfl
  | succ k ih => simp [List.replicate_succ, digitsVal, ih]

lemma digitsVal_lt (n : Nat) (_hn : 1 ≤ n) :
    ∀ ds : List Nat, (∀ dg ∈ ds, dg < n) → digitsVal n ds < n ^ ds.length := by
  intro ds
  induction ds with
  | nil => intro _; rw [digitsVal]; exact Nat.one_pos
  | cons d ds ih =>
    intro h
    have hd : d < n := h d (List.mem_cons_self _ _)
    have hV : digitsVal n ds < n ^ ds.length :=
      ih (fun x hx => h x (List.mem_cons_of_mem _ hx))
    rw [digitsVal, List.length_cons, pow_succ]
    calc d + n * digitsVal n ds < n + n * digitsVal n ds := by omega
    _ = n * (digitsVal n ds + 1) := by ring
    _ ≤ n * n ^ ds.length := Nat.mul_le_mul_left n hV
    _ = n ^ ds.length * n := by ring

lemma digitsVal_inj (n : Nat) :
    ∀ ds1 ds2 : List Nat, ds1.length = ds2.length →
      (∀ dg ∈ ds1, dg < n) → (∀ dg ∈ ds2, dg < n) →
      digitsVal n ds1 = digitsVal n ds2 → ds1 = ds2 := by
  intro ds1
  induction ds1 with
  | nil =>
    intro ds2 hlen _ _ _
    exact (List.eq_nil_of_length_eq_zero hlen.symm).symm
  | cons d1 t1 ih =>
    intro ds2 hlen hb1 hb2 hval
    cases ds2 with
    | nil => exact absurd hlen (by simp)
    | cons d2 t2 =>
      rw [digitsVal, digitsVal] at hval
      have hd1 : d1 < n := hb1 d1 (List.mem_cons_self _ _)
      have hd2 : d2 < n := hb2 d2 (List.mem_cons_self _ _)
      have hmod : d1 = d2 := by
        have h1 : (d1 + n * digitsVal n t1) % n = d1 := by
          rw [Nat.add_comm, Nat.mul_add_mod, Nat.mod_eq_of_lt hd1]
        have h2 : (d2 + n * digitsVal n t2) % n = d2 := by
          rw [Nat.add_comm, Nat.mul_add_mod, Nat.mod_eq_of_lt hd2]
        rw [← h1, ← h2, hval]
      subst hmod
      have hn : 0 < n := Nat.lt_of_le_of_lt (Nat.zero_le d1) hd1
      have hV : digitsVal n t1 = digitsVal n t2 :=
        Nat.eq_of_mul_eq_mul_left hn (by omega)
      have ht : t1 = t2 :=
        ih t2 (by simpa using hlen)
          (fun x hx => hb1 x (List.mem_cons_of_mem _ hx))
          (fun x hx => hb2 x (List.mem_cons_of_mem _ hx)) hV
      rw [ht]

/-- Effect of incrementDigits on the encoded value: success adds one,
overflow means the vector held the maximal value. -/
lemma incrementDigits_spec (n : Nat) (hn : 1 ≤ n) :
    ∀ ds : List Nat, (∀ dg ∈ ds, dg < n) →
      match incrementDigits n ds with
      | some ds2 => digitsVal n ds2 = digitsVal n ds + 1 ∧
          ds2.length = ds.length ∧ ∀ dg ∈ ds2, dg < n
      | none => digitsVal n ds + 1 = n ^ ds.length := by
  intro ds
  induction ds with
  | nil => intro _; rw [incrementDigits]; simp [digitsVal]
  | cons d ds ih =>
    intro hb
    have hd : d < n := hb d (List.mem_cons_self _ _)
    have hbt : ∀ dg ∈ ds, dg < n := fun x hx => hb x (List.mem_cons_of_mem _ hx)
    rw [incrementDigits]
    by_cases hlt : d + 1 < n
    · rw [if_pos hlt]
      refine ⟨by rw [digitsVal, digitsVal]; omega, by simp, ?_⟩
      intro x hx
      rcases List.mem_cons.mp hx with rfl | hx
      · exact hlt
      · exact hbt x hx
    · rw [if_neg hlt]
      have hdmax : d = n - 1 := by omega
      have hspec := ih hbt
      cases hinc : incrementDigits n ds with
      | none =>
        rw [hinc] at hspec
        have hspec2 : digitsVal n ds + 1 = n ^ ds.length := hspec
        simp only
        rw [digitsVal, List.length_cons, pow_succ, ← hspec2]
        have hring : (digitsVal n ds + 1) * n = digitsVal n ds * n + n := by ring
        have hc : n * digitsVal n ds = digitsVal n ds * n := Nat.mul_comm _ _
        omega
      | some ds2 =>
        rw [hinc] at hspec
        obtain ⟨hv, hl, hbnd⟩ := hspec
        simp only
        refine ⟨?_, by simp [hl], ?_⟩
        · rw [digitsVal, digitsVal, hv]
          have : n * (digitsVal n ds + 1) = n * digitsVal n ds + n := by ring
          omega
        · intro x hx
          rcases List.mem_cons.mp hx with rfl | hx
          · omega
          · exact hbnd x hx

lemma blockSize_pos (as : List Char) (n : Nat) (hn : 1 ≤ n) :
    1 ≤ blockSize as n := by
  rw [blockSize]
  exact Nat.mul_pos (Nat.pos_pow_of_pos _ hn) (Nat.pos_pow_of_pos _ (by omega))

lemma offsetN_le_offsetN (as : List Char) :
    ∀ {m n : Nat}, m ≤ n → offsetN as m ≤ offsetN as n := by
  intro m n h
  induction n with
  | zero => rw [Nat.le_zero.mp h]
  | succ n ih =>
    rcases Nat.lt_or_ge m (n + 1) with hlt | hge
    · have := ih (by omega)
      rw [offsetN]
      omega
    · rw [Nat.le_antisymm h hge]

lemma offsetN_lt_offsetN (as : List Char) {m n : Nat} (h : m < n) :
    offsetN as m < offsetN as n := by
  have h1 : offsetN as (m + 1) ≤ offsetN as n := offsetN_le_offsetN as h
  have h2 : offsetN as m < offsetN as (m + 1) := by
    rw [offsetN]
    have := blockSize_pos as (m + 1) (by omega)
    omega
  omega

/-- A canonical cursor sits inside the block of its state count. -/
lemma cidx_lt_offsetN (as : List Char) (c : EnumCursor)
    (hc : CanonCursor as c) : cidx as c < offsetN as c.n := by
  obtain ⟨hn, hlen, hbnd, hmask⟩ := hc
  have hV : digitsVal c.n c.digits < c.n ^ (c.n * as.length) := by
    have := digitsVal_lt c.n hn c.digits hbnd
    rwa [hlen] at this
  have hup : offsetN as c.n = offsetN as (c.n - 1) + blockSize as c.n := by
    have hc1 : c.n = (c.n - 1) + 1 := by omega
    calc offsetN as c.n = offsetN as ((c.n - 1) + 1) := by rw [← hc1]
    _ = offsetN as (c.n - 1) + blockSize as ((c.n - 1) + 1) := by rw [offsetN]
    _ = offsetN as (c.n - 1) + blockSize as c.n := by rw [← hc1]
  rw [cidx, hup, blockSize]
  have hstep : (digitsVal c.n c.digits + 1) * 2 ^ c.n ≤
      c.n ^ (c.n * as.length) * 2 ^ c.n :=
    Nat.mul_le_mul_right _ hV
  have hring : (digitsVal c.n c.digits + 1) * 2 ^ c.n =
      digitsVal c.n c.digits * 2 ^ c.n + 2 ^ c.n := by ring
  omega

/-- A canonical cursor sits at or after the start of its block. -/
lemma offsetN_le_cidx (as : List Char) (c : EnumCursor) :
    offsetN as (c.n - 1) ≤ cidx as c := by
  rw [cidx]; omega

lemma canonCursor_mk (as : List Char) (n : Nat) (digits : List Nat)
    (mask : Nat) (h1 : 1 ≤ n) (h2 : digits.length = n * as.length)
    (h3 : ∀ dg ∈ digits, dg < n) (h4 : mask < 2 ^ n) :
    CanonCursor as ⟨n, digits, mask⟩ :=
  ⟨h1, h2, h3, h4⟩

lemma cidx_mk (as : List Char) (n : Nat) (digits : List Nat) (mask : Nat) :
    cidx as ⟨n, digits, mask⟩ =
      offsetN as (n - 1) + digitsVal n digits * 2 ^ n + mask := rfl

/-- One advance of the enumerator: the cursor stays canonical and its
sequence position moves up by exactly one. -/
lemma nextCursor_canon_cidx (as : List Char) (c : EnumCursor)
    (hc : CanonCursor as c) :
    CanonCursor as (nextCursor as c) ∧
      cidx as (nextCursor as c) = cidx as c + 1 := by
  obtain ⟨hn, hlen, hbnd, hmask⟩ := hc
  rw [nextCursor]
  by_cases hm : c.mask + 1 < 2 ^ c.n
  · rw [if_pos hm]
    refine ⟨canonCursor_mk as c.n c.digits (c.mask + 1) hn hlen hbnd hm, ?_⟩
    rw [cidx_mk, cidx]
    omega
  · rw [if_neg hm]
    have hmeq : c.mask + 1 = 2 ^ c.n := by omega
    have hspec := incrementDigits_spec c.n hn c.digits hbnd
    cases hinc : incrementDigits c.n c.digits with
    | some ds2 =>
      rw [hinc] at hspec
      obtain ⟨hv, hl, hb2⟩ := hspec
      refine ⟨canonCursor_mk as c.n ds2 0 hn (by rw [hl]; exact hlen) hb2
        (Nat.pos_pow_of_pos _ (by omega)), ?_⟩
      rw [cidx_mk, cidx, hv]
      have hring : (digitsVal c.n c.digits + 1) * 2 ^ c.n =
          digitsVal c.n c.digits * 2 ^ c.n + 2 ^ c.n := by ring
      omega
    | none =>
      rw [hinc] at hspec
      have hval : digitsVal c.n c.digits + 1 = c.n ^ c.digits.length := hspec
      refine ⟨canonCursor_mk as (c.n + 1) _ 0 (by omega) (by simp) ?_
        (Nat.pos_pow_of_pos _ (by omega)), ?_⟩
      · intro dg hdg
        rw [List.eq_of_mem_replicate hdg]
        omega
      · rw [cidx_mk, cidx, digitsVal_replicate_zero]
        have hup : offsetN as ((c.n + 1) - 1) =
            offsetN as (c.n - 1) + blockSize as c.n := by
          have hc1 : c.n = (c.n - 1) + 1 := by omega
          calc offsetN as ((c.n + 1) - 1) = offsetN as ((c.n - 1) + 1) := by
                have he : (c.n + 1) - 1 = (c.n - 1) + 1 := by omega
                rw [he]
          _ = offsetN as (c.n - 1) + blockSize as ((c.n - 1) + 1) := by
                rw [offsetN]
          _ = offsetN as (c.n - 1) + blockSize as c.n := by rw [← hc1]
        rw [hup, blockSize]
        have hring : (digitsVal c.n c.digits + 1) * 2 ^ c.n =
            digitsVal c.n c.digits * 2 ^ c.n + 2 ^ c.n := by ring
        have hfull : (digitsVal c.n c.digits + 1) * 2 ^ c.n =
            c.n ^ (c.n * as.length) * 2 ^ c.n := by
          rw [hval, hlen]
        omega

/-- Every reached cursor is canonical and sits at its own index. -/
lemma cursorAt_canon_cidx (as : List Char) :
    ∀ i, CanonCursor as (cursorAt as i) ∧ cidx as (cursorAt as i) = i := by
  intro i
  induction i with
  | zero =>
    rw [cursorAt, initCursor]
    refine ⟨canonCursor_mk as 1 _ 0 (le_refl 1) (by simp) ?_ (by decide), ?_⟩
    · intro dg hdg
      rw [List.eq_of_mem_replicate hdg]
      omega
    · rw [cidx_mk, digitsVal_replicate_zero]
      simp [offsetN]
  | succ i ih =>
    obtain ⟨hcan, hidx⟩ := ih
    obtain ⟨hcan2, hstep⟩ := nextCursor_canon_cidx as (cursorAt as i) hcan
    exact ⟨hcan2, by rw [cursorAt, hstep, hidx]⟩

/-- The sequence position determines the canonical cursor. -/
lemma cidx_inj (as : List Char) {c1 c2 : EnumCursor}
    (h1 : CanonCursor as c1) (h2 : CanonCursor as c2)
    (he : cidx as c1 = cidx as c2) : c1 = c2 := by
  have hn : c1.n = c2.n := by
    by_contra hne
    rcases Nat.lt_or_ge c1.n c2.n with hlt | hge
    · have ha : cidx as c1 < offsetN as c1.n := cidx_lt_offsetN as c1 h1
      have hb : offsetN as c1.n ≤ offsetN as (c2.n - 1) :=
        offsetN_le_offsetN as (by omega)
      have hcc : offsetN as (c2.n - 1) ≤ cidx as c2 := offsetN_le_cidx as c2
      omega
    · have hlt2 : c2.n < c1.n := by omega
      have ha : cidx as c2 < offsetN as c2.n := cidx_lt_offsetN as c2 h2
      have hb : offsetN as c2.n ≤ offsetN as (c1.n - 1) :=
        offsetN_le_offsetN as (by omega)
      have hcc : offsetN as (c1.n - 1) ≤ cidx as c1 := offsetN_le_cidx as c1
      omega
  obtain ⟨hn1, hlen1, hbnd1, hmask1⟩ := h1
  obtain ⟨hn2, hlen2, hbnd2, hmask2⟩ := h2
  rw [cidx, cidx, hn] at he
  have he2 : digitsVal c2.n c1.digits * 2 ^ c2.n + c1.mask =
      digitsVal c2.n c2.digits * 2 ^ c2.n + c2.mask := by omega
  have hmask1' : c1.mask < 2 ^ c2.n := by rw [← hn]; exact hmask1
  have hmaskeq : c1.mask = c2.mask := by
    have ha : (digitsVal c2.n c1.digits * 2 ^ c2.n + c1.mask) % 2 ^ c2.n =
        c1.mask := by
      rw [Nat.mul_comm, Nat.mul_add_mod, Nat.mod_eq_of_lt hmask1']
    have hb : (digitsVal c2.n c2.digits * 2 ^ c2.n + c2.mask) % 2 ^ c2.n =
        c2.mask := by
      rw [Nat.mul_comm, Nat.mul_add_mod, Nat.mod_eq_of_lt hmask2]
    rw [← ha, ← hb, he2]
  have hdv : digitsVal c2.n c1.digits = digitsVal c2.n c2.digits := by
    have hpos : 0 < 2 ^ c2.n := Nat.pos_pow_of_pos _ (by omega)
    have := he2
    rw [hmaskeq] at this
    have hmul : digitsVal c2.n c1.digits * 2 ^ c2.n =
        digitsVal c2.n c2.digits * 2 ^ c2.n := by omega
    exact Nat.eq_of_mul_eq_mul_right hpos hmul
  have hdig : c1.digits = c2.digits := by
    refine digitsVal_inj c2.n c1.digits c2.digits ?_ ?_ hbnd2 hdv
    · rw [hlen1, hlen2, hn]
    · intro x hx
      rw [← hn]
      exact hbnd1 x hx
  cases c1; cases c2
  simp only at hn hdig hmaskeq
  rw [hn, hdig, hmaskeq]

/-- Every canonical cursor is the one reached at its index. -/
lemma cursorAt_cidx (as : List Char) (c : EnumCursor) (hc : CanonCursor as c) :
    cursorAt as (cidx as c) = c := by
  obtain ⟨hcan, hidx⟩ := cursorAt_canon_cidx as (cidx as c)
  exact cidx_inj as hcan hc hidx

lemma slice_length {σ : Nat} {digits : List Nat} {n s : Nat}
    (hlen : digits.length = n * σ) (hs : s < n) :
    ((digits.drop (s * σ)).take σ).length = σ := by
  rw [List.length_take, List.length_drop]
  have hmul : (s + 1) * σ ≤ n * σ := Nat.mul_le_mul_right σ hs
  have hexp : (s + 1) * σ = s * σ + σ := by ring
  omega

/-- A list of width n times σ is determined by its n slices of width σ. -/
lemma eq_of_slices_eq (σ : Nat) :
    ∀ (n : Nat) (d1 d2 : List Nat), d1.length = n * σ → d2.length = n * σ →
      (∀ s, s < n → (d1.drop (s * σ)).take σ = (d2.drop (s * σ)).take σ) →
      d1 = d2 := by
  intro n
  induction n with
  | zero =>
    intro d1 d2 h1 h2 _
    have e1 : d1 = [] := List.eq_nil_of_length_eq_zero (by simpa using h1)
    have e2 : d2 = [] := List.eq_nil_of_length_eq_zero (by simpa using h2)
    rw [e1, e2]
  | succ n ih =>
    intro d1 d2 h1 h2 hsl
    have hexp : (n + 1) * σ = n * σ + σ := by ring
    have htake : d1.take σ = d2.take σ := by
      have h := hsl 0 (Nat.succ_pos n)
      simpa using h
    have hdrop : d1.drop σ = d2.drop σ := by
      refine ih (d1.drop σ) (d2.drop σ) ?_ ?_ ?_
      · rw [List.length_drop]; omega
      · rw [List.length_drop]; omega
      · intro s hs
        have h := hsl (s + 1) (by omega)
        have he : (s + 1) * σ = σ + s * σ := by ring
        rw [he] at h
        rw [List.drop_drop, List.drop_drop]
        exact h
    calc d1 = d1.take σ ++ d1.drop σ := (List.take_append_drop σ d1).symm
    _ = d2.take σ ++ d2.drop σ := by rw [htake, hdrop]
    _ = d2 := List.take_append_drop σ d2

lemma buildTransitions_inj (as : List Char) (n : Nat) {d1 d2 : List Nat}
    (h1 : d1.length = n * as.length) (h2 : d2.length = n * as.length)
    (he : buildTransitions as n d1 = buildTransitions as n d2) : d1 = d2 := by
  refine eq_of_slices_eq as.length n d1 d2 h1 h2 ?_
  intro s hs
  have hz := List.map_inj_left.mp he s (List.mem_range.mpr hs)
  have hzip : as.zip ((d1.drop (s * as.length)).take as.length) =
      as.zip ((d2.drop (s * as.length)).take as.length) :=
    congrArg Prod.snd hz
  have hl1 : ((d1.drop (s * as.length)).take as.length).length ≤ as.length :=
    le_of_eq (slice_length h1 hs)
  have hl2 : ((d2.drop (s * as.length)).take as.length).length ≤ as.length :=
    le_of_eq (slice_length h2 hs)
  calc (d1.drop (s * as.length)).take as.length
      = (as.zip ((d1.drop (s * as.length)).take as.length)).map Prod.snd :=
        (List.map_snd_zip _ _ hl1).symm
  _ = (as.zip ((d2.drop (s * as.length)).take as.length)).map Prod.snd := by
        rw [hzip]
  _ = (d2.drop (s * as.length)).take as.length := List.map_snd_zip _ _ hl2

lemma mask_of_filter_eq {n m1 m2 : Nat} (h1 : m1 < 2 ^ n) (h2 : m2 < 2 ^ n)
    (he : (List.range n).filter (fun s => m1.testBit s) =
      (List.range n).filter (fun s => m2.testBit s)) : m1 = m2 := by
  apply Nat.eq_of_testBit_eq
  intro i
  by_cases hi : i < n
  · have hmem : (i ∈ (List.range n).filter (fun s => m1.testBit s)) ↔
        (i ∈ (List.range n).filter (fun s => m2.testBit s)) := by rw [he]
    simp only [List.mem_filter, List.mem_range] at hmem
    have hp : m1.testBit i = true ↔ m2.testBit i = true := by
      constructor
      · intro h; exact (hmem.mp ⟨hi, h⟩).2
      · intro h; exact (hmem.mpr ⟨hi, h⟩).2
    by_cases hq : m1.testBit i = true
    · rw [hq, hp.mp hq]
    · have hq2 : ¬ m2.testBit i = true := fun hh => hq (hp.mpr hh)
      rw [Bool.not_eq_true] at hq hq2
      rw [hq, hq2]
  · have hle : 2 ^ n ≤ 2 ^ i := Nat.pow_le_pow_right (by omega) (by omega)
    rw [Nat.testBit_eq_false_of_lt (by omega),
      Nat.testBit_eq_false_of_lt (by omega)]

/-- Two canonical cursors yielding the same DFA are equal. -/
lemma produceDFA_inj (as : List Char) {c1 c2 : EnumCursor}
    (h1 : CanonCursor as c1) (h2 : CanonCursor as c2)
    (he : produceDFA as c1 = produceDFA as c2) : c1 = c2 := by
  have hst : List.range c1.n = List.range c2.n := congrArg DFA.states he
  have hn : c1.n = c2.n := by
    have := congrArg List.length hst
    simpa using this
  have hfin : (List.range c1.n).filter (fun s => c1.mask.testBit s) =
      (List.range c2.n).filter (fun s => c2.mask.testBit s) :=
    congrArg DFA.finals he
  have htr : buildTransitions as c1.n c1.digits =
      buildTransitions as c2.n c2.digits := congrArg DFA.transitions he
  rw [hn] at hfin htr
  have hmask : c1.mask = c2.mask := by
    refine mask_of_filter_eq ?_ h2.2.2.2 hfin
    rw [← hn]
    exact h1.2.2.2
  have hdig : c1.digits = c2.digits := by
    refine buildTransitions_inj as c2.n ?_ h2.2.1 htr
    rw [← hn]
    exact h1.2.1
  cases c1; cases c2
  simp only at hn hdig hmask
  rw [hn, hdig, hmask]

lemma alookup_append {α β : Type} [DecidableEq α] :
    ∀ (l1 l2 : List (α × β)) (a : α),
      alookup (l1 ++ l2) a =
        match alookup l1 a with
        | some b => some b
        | none => alookup l2 a := by
  intro l1
  induction l1 with
  | nil => intro l2 a; rw [List.nil_append, alookup]
  | cons p rest ih =>
    intro l2 a
    rw [List.cons_append, alookup, alookup]
    by_cases ha : a = p.1
    · rw [if_pos ha, if_pos ha]
    · rw [if_neg ha, if_neg ha]
      exact ih l2 a

lemma alookup_eq_none_of_forall {α β : Type} [DecidableEq α] :
    ∀ {l : List (α × β)} {a : α}, (∀ p ∈ l, a ≠ p.1) → alookup l a = none := by
  intro l
  induction l with
  | nil => intro a _; rw [alookup]
  | cons p rest ih =>
    intro a h
    rw [alookup, if_neg (h p (List.mem_cons_self _ _))]
    exact ih (fun x hx => h x (List.mem_cons_of_mem _ hx))

lemma alookup_map_range {β : Type} (f : Nat → β) :
    ∀ (n s : Nat), s < n →
      alookup ((List.range n).map (fun k => (k, f k))) s = some (f s) := by
  intro n
  induction n with
  | zero => intro s hs; omega
  | succ n ih =>
    intro s hs
    rw [List.range_succ, List.map_append, alookup_append]
    by_cases hlt : s < n
    · rw [ih s hlt]
    · have hseq : s = n := by omega
      have hnone : alookup ((List.range n).map (fun k => (k, f k))) s = none := by
        refine alookup_eq_none_of_forall ?_
        intro p hp
        obtain ⟨k, hk, rfl⟩ := List.mem_map.mp hp
        have := List.mem_range.mp hk
        omega
      rw [hnone]
      simp [hseq, alookup]

lemma alookup_zip_of_length {as : List Char} :
    ∀ {l : List Nat}, l.length = as.length → ∀ sym ∈ as,
      ∃ t, alookup (as.zip l) sym = some t ∧ t ∈ l := by
  induction as with
  | nil => intro l _ sym hs; exact absurd hs (by simp)
  | cons a as ih =>
    intro l hlen sym hs
    cases l with
    | nil => exact absurd hlen (by simp)
    | cons t l2 =>
      rw [List.zip_cons_cons, alookup]
      by_cases ha : sym = a
      · rw [if_pos ha]
        exact ⟨t, rfl, List.mem_cons_self _ _⟩
      · rw [if_neg ha]
        have hs2 : sym ∈ as := by
          rcases List.mem_cons.mp hs with h | h
          · exact absurd h ha
          · exact h
        obtain ⟨t2, hl2, ht2⟩ := ih (by simpa using hlen) sym hs2
        exact ⟨t2, hl2, List.mem_cons_of_mem _ ht2⟩

/-- Every DFA yielded from a canonical cursor is well formed. -/
lemma produceDFA_wellFormed (as : List Char) (c : EnumCursor)
    (hc : CanonCursor as c) : WellFormedDFA (produceDFA as c) := by
  obtain ⟨hn, hlen, hbnd, hmask⟩ := hc
  refine ⟨?_, ?_, ?_⟩
  · simp only [produceDFA]
    exact List.mem_range.mpr (by omega)
  · intro f hf
    simp only [produceDFA] at hf ⊢
    exact (List.mem_filter.mp hf).1
  · intro s hs
    simp only [produceDFA] at hs ⊢
    have hsn : s < c.n := List.mem_range.mp hs
    refine ⟨as.zip ((c.digits.drop (s * as.length)).take as.length), ?_, ?_⟩
    · rw [buildTransitions]
      exact alookup_map_range _ c.n s hsn
    · intro sym hsym
      obtain ⟨t, hl, ht⟩ :=
        alookup_zip_of_length (slice_length hlen hsn) sym hsym
      refine ⟨t, hl, ?_⟩
      have htd : t ∈ c.digits :=
        List.mem_of_mem_drop (List.mem_of_mem_take ht)
      exact List.mem_range.mpr (hbnd t htd)

lemma enumerateDFAs_inj (as : List Char) :
    ∀ i j, enumerateDFAs as i = enumerateDFAs as j → i = j := by
  intro i j h
  obtain ⟨hci, hii⟩ := cursorAt_canon_cidx as i
  obtain ⟨hcj, hjj⟩ := cursorAt_canon_cidx as j
  have := produceDFA_inj as hci hcj h
  rw [← hii, ← hjj, this]

lemma enumerateDFAs_of_canon (as : List Char) (c : EnumCursor)
    (hc : CanonCursor as c) : enumerateDFAs as (cidx as c) = produceDFA as c := by
  rw [enumerateDFAs, cursorAt_cidx as c hc]

lemma enumerateDFAs_start (as : List Char) (i : Nat) :
    (enumerateDFAs as i).start = 0 := rfl

lemma enumerateDFAs_states_length (as : List Char) (i : Nat) :
    (enumerateDFAs as i).states.length = (cursorAt as i).n := by
  rw [enumerateDFAs, produceDFA]
  exact List.length_range _

/-- The DFAs of state count n occupy exactly the block of indices of
state count n. -/
lemma enumerateDFAs_states_length_iff (as : List Char) (n : Nat)
    (hn : 1 ≤ n) (i : Nat) :
    (enumerateDFAs as i).states.length = n ↔
      offsetN as (n - 1) ≤ i ∧ i < offsetN as n := by
  obtain ⟨hc, hi⟩ := cursorAt_canon_cidx as i
  rw [enumerateDFAs_states_length]
  constructor
  · intro h
    refine ⟨?_, ?_⟩
    · have hx := offsetN_le_cidx as (cursorAt as i)
      rw [h, hi] at hx
      exact hx
    · have hx := cidx_lt_offsetN as (cursorAt as i) hc
      rw [h, hi] at hx
      exact hx
  · intro ⟨hlo, hhi⟩
    set m := (cursorAt as i).n with hm
    have hm1 : 1 ≤ m := hc.1
    have hmlo : offsetN as (m - 1) ≤ i := by rw [← hi]; exact offsetN_le_cidx as _
    have hmhi : i < offsetN as m := by rw [← hi]; exact cidx_lt_offsetN as _ hc
    by_contra hne
    rcases Nat.lt_or_ge m n with hlt | hge
    · have : offsetN as m ≤ offsetN as (n - 1) := offsetN_le_offsetN as (by omega)
      omega
    · have hgt : n < m := by omega
      have : offsetN as n ≤ offsetN as (m - 1) := offsetN_le_offsetN as (by omega)
      omega

lemma offsetN_pred (as : List Char) {n : Nat} (hn : 1 ≤ n) :
    offsetN as n = offsetN as (n - 1) + blockSize as n := by
  have hc1 : n = (n - 1) + 1 := by omega
  calc offsetN as n = offsetN as ((n - 1) + 1) := by rw [← hc1]
  _ = offsetN as (n - 1) + blockSize as ((n - 1) + 1) := by rw [offsetN]
  _ = offsetN as (n - 1) + blockSize as n := by rw [← hc1]

/-- C1 (amended): for every TM-decider converted from a structurally
valid DFA whose alphabet does not contain the hard-coded blank symbol,
and every input over the alphabet, the simulator returns ACCEPT exactly
when the DFA state reached from start by the transition function on the
input belongs to finals, REJECT otherwise. The amendment adds the
blank-free alphabet hypothesis, which the counterexample forces: the
source fixes the blank to the underscore character. -/
theorem c1_simulator_decides_acceptance (d : DFA) (input : List Char)
    (hv : validateDFA d = 1) (hb : '_' ∉ d.alphabet)
    (hin : ∀ ch ∈ input, ch ∈ d.alphabet) :
    ∃ q trace, dfaDeltaStar d d.start input = some q ∧
      simulateTM (convertDFAtoTM d) input =
        some (if q ∈ d.finals then "ACCEPT" else "REJECT", trace) := by
  obtain ⟨q, mids, hds, hsim, -, -⟩ :=
    simulateTM_run d ((validateDFA_eq_one_iff d).mp hv) hb input hin
  exact ⟨q, _, hds, hsim⟩

/-- Witness for C1 at the example DFA of the source and the input abba,
whose final state is 1 and whose decision is therefore ACCEPT. -/
theorem c1_witness :
    ∃ q trace,
      dfaDeltaStar validDFA validDFA.start ['a', 'b', 'b', 'a'] = some q ∧
      simulateTM (convertDFAtoTM validDFA) ['a', 'b', 'b', 'a'] =
        some (if q ∈ validDFA.finals then "ACCEPT" else "REJECT", trace) :=
  c1_simulator_decides_acceptance validDFA ['a', 'b', 'b', 'a']
    (by decide) (by decide) (by decide)

/-- Counterexample to C1 as stated: the underscore DFA is structurally
valid, the input consists of one alphabet symbol and drives the DFA into
its final state 1, yet the simulator answers REJECT, because the blank
symbol of the converter collides with the alphabet and the simulator
halts before consuming the symbol. -/
theorem c1_counterexample :
    validateDFA underscoreDFA = 1 ∧
    underscoreDFA.alphabet = ['_'] ∧
    dfaDeltaStar underscoreDFA underscoreDFA.start ['_'] = some 1 ∧
    1 ∈ underscoreDFA.finals ∧
    (simulateTM (convertDFAtoTM underscoreDFA) ['_']).map Prod.fst =
      some "REJECT" := by
  exact ⟨by decide, rfl, by decide, by decide, by decide⟩

/-- C2: on every structurally valid DFA the emptiness checker answers
true exactly when no accepting state is reachable from the start state in
the transition graph; in particular it answers true when finals is empty,
and false when some reachable state is final. -/
theorem c2_isEmpty_iff_no_reachable_final (d : DFA)
    (hv : validateDFA d = 1) :
    (dfaRecognizesEmpty d = some true ↔
      ∀ q, ReachableDFA d q → q ∉ d.finals) ∧
    (d.finals = [] → dfaRecognizesEmpty d = some true) ∧
    ((∃ q, ReachableDFA d q ∧ q ∈ d.finals) →
      dfaRecognizesEmpty d = some false) := by
  have hw := (validateDFA_eq_one_iff d).mp hv
  have hiff := dfaRecognizesEmpty_true_iff d hw
  refine ⟨hiff, ?_, ?_⟩
  · intro hfin
    exact hiff.mpr (fun q _ => by rw [hfin]; exact List.not_mem_nil q)
  · intro ⟨q, hq, hqf⟩
    obtain ⟨b, hb⟩ := dfaRecognizesEmpty_isSome d hw
    cases b with
    | true => exact absurd hqf (hiff.mp hb q hq)
    | false => exact hb

/-- Witness for C2: the empty-finals example of the source is reported
empty. -/
theorem c2_witness : dfaRecognizesEmpty emptyDFA = some true :=
  (c2_isEmpty_iff_no_reachable_final emptyDFA (by decide)).2.1 rfl

/-- C3: the validator is a total function (a plain Lean function, never
failing), it only returns the two values 1 and 0, it returns 1 exactly
when all well-formedness clauses hold, and 0 exactly when some clause is
violated. -/
theorem c3_validator_complete (d : DFA) :
    (validateDFA d = 1 ∨ validateDFA d = 0) ∧
    (validateDFA d = 1 ↔ WellFormedDFA d) ∧
    (validateDFA d = 0 ↔ ¬ WellFormedDFA d) :=
  ⟨(validateDFA_zero_or_one d).symm, validateDFA_eq_one_iff d,
    validateDFA_eq_zero_iff d⟩

/-- Witness for C3 at the valid example DFA of the source. -/
theorem c3_witness :
    (validateDFA validDFA = 1 ∨ validateDFA validDFA = 0) ∧
    (validateDFA validDFA = 1 ↔ WellFormedDFA validDFA) ∧
    (validateDFA validDFA = 0 ↔ ¬ WellFormedDFA validDFA) :=
  c3_validator_complete validDFA

/-- C4 (amended): every DFA of the canonical enumeration shape (the image
of a canonical cursor: states 0..n-1 for some positive n, start 0, finals
the set bits of a mask below 2 to the n, transitions decoded from an
n-by-symbol-count digit vector) appears exactly once in the enumeration
sequence, and every enumerated DFA is of that shape. The original claim
(every DFA with finite state count appears) fails because the enumerator
fixes start at 0: see the counterexample. -/
theorem c4_enumerator_exactly_once_canonical :
    (∀ (as : List Char) (c : EnumCursor), CanonCursor as c →
      ∃! i, enumerateDFAs as i = produceDFA as c) ∧
    (∀ (as : List Char) (i : Nat),
      ∃ c, CanonCursor as c ∧ enumerateDFAs as i = produceDFA as c) := by
  constructor
  · intro as c hc
    refine ⟨cidx as c, enumerateDFAs_of_canon as c hc, ?_⟩
    intro j hj
    exact enumerateDFAs_inj as j (cidx as c)
      (hj.trans (enumerateDFAs_of_canon as c hc).symm)
  · intro as i
    exact ⟨cursorAt as i, (cursorAt_canon_cidx as i).1, rfl⟩

/-- Witness for C4 at a concrete canonical cursor (one state, final mask
1). -/
theorem c4_witness :
    ∃! i, enumerateDFAs ['a', 'b'] i = produceDFA ['a', 'b'] ⟨1, [0, 0], 1⟩ :=
  c4_enumerator_exactly_once_canonical.1 ['a', 'b'] ⟨1, [0, 0], 1⟩ (by decide)

/-- Counterexample to C4 as stated: a structurally valid two-state DFA
with start state 1 never appears in the sequence, since every enumerated
DFA has start 0. -/
theorem c4_counterexample :
    validateDFA startOneDFA = 1 ∧
    ¬ ∃ i, enumerateDFAs ['a', 'b'] i = startOneDFA := by
  refine ⟨by decide, ?_⟩
  rintro ⟨i, h⟩
  have h0 := congrArg DFA.start h
  rw [enumerateDFAs_start] at h0
  exact absurd h0 (by decide)

/-- C5: every DFA produced by the enumerator, over any alphabet, at any
position of the sequence, passes the validator. -/
theorem c5_enumerator_sound (as : List Char) (i : Nat) :
    validateDFA (enumerateDFAs as i) = 1 :=
  (validateDFA_eq_one_iff _).mpr
    (produceDFA_wellFormed as (cursorAt as i) (cursorAt_canon_cidx as i).1)

/-- Witness for C5 at position 5 of the two-symbol enumeration. -/
theorem c5_witness : validateDFA (enumerateDFAs ['a', 'b'] 5) = 1 :=
  c5_enumerator_sound ['a', 'b'] 5

/-- C6 (amended): for a TM-decider converted from a structurally valid
DFA whose alphabet avoids the blank, and an input over the alphabet, the
returned trace has exactly length of input plus 2 entries: one initial
Start entry, one read entry per input symbol, and one terminal decision
entry. The amendment restricts the inputs, which the counterexample
forces: on an input containing the blank symbol the simulator halts
early. -/
theorem c6_trace_shape (d : DFA) (input : List Char)
    (hv : validateDFA d = 1) (hb : '_' ∉ d.alphabet)
    (hin : ∀ ch ∈ input, ch ∈ d.alphabet) :
    ∃ decision q mids,
      simulateTM (convertDFAtoTM d) input =
        some (decision,
          ⟨d.start, input, 0, TMAction.start⟩ :: mids ++
            [⟨q, input, input.length, TMAction.halt decision⟩]) ∧
      (⟨d.start, input, 0, TMAction.start⟩ :: mids ++
        [⟨q, input, input.length, TMAction.halt decision⟩] :
          List TMConfig).length = input.length + 2 ∧
      mids.length = input.length ∧
      ∀ e ∈ mids, ∃ ch nx, e.action = TMAction.read ch nx := by
  obtain ⟨q, mids, hds, hsim, hlen, hmid⟩ :=
    simulateTM_run d ((validateDFA_eq_one_iff d).mp hv) hb input hin
  refine ⟨_, q, mids, hsim, ?_, hlen, hmid⟩
  simp [hlen]

/-- Witness for C6 at the example DFA of the source and the input abba
(a trace of 6 entries). -/
theorem c6_witness :
    ∃ decision q mids,
      simulateTM (convertDFAtoTM validDFA) ['a', 'b', 'b', 'a'] =
        some (decision,
          ⟨validDFA.start, ['a', 'b', 'b', 'a'], 0, TMAction.start⟩ :: mids ++
            [⟨q, ['a', 'b', 'b', 'a'], (['a', 'b', 'b', 'a'] : List Char).length,
              TMAction.halt decision⟩]) ∧
      (⟨validDFA.start, ['a', 'b', 'b', 'a'], 0, TMAction.start⟩ :: mids ++
        [⟨q, ['a', 'b', 'b', 'a'], (['a', 'b', 'b', 'a'] : List Char).length,
          TMAction.halt decision⟩] : List TMConfig).length =
        (['a', 'b', 'b', 'a'] : List Char).length + 2 ∧
      mids.length = (['a', 'b', 'b', 'a'] : List Char).length ∧
      ∀ e ∈ mids, ∃ ch nx, e.action = TMAction.read ch nx :=
  c6_trace_shape validDFA ['a', 'b', 'b', 'a']
    (by decide) (by decide) (by decide)

/-- Counterexample to C6 as stated: on the example DFA and the
one-character input consisting of the blank symbol, the trace has 2
entries, not 1 + 2 = 3. -/
theorem c6_counterexample :
    (simulateTM (convertDFAtoTM validDFA) ['_']).map
      (fun r => r.2.length) = some 2 ∧
    (simulateTM (convertDFAtoTM validDFA) ['_']).map
      (fun r => r.2.length) ≠ some ((['_'] : List Char).length + 2) := by
  exact ⟨by decide, by decide⟩

/-- C7: over the two-symbol alphabet the first two outputs are exactly
the two one-state DFAs, first with empty finals, then with final state 0;
these are distinct; the outputs of state count 1 are exactly positions 0
and 1; and for every state count n exactly n to the power 2n times 2 to
the n DFAs are emitted, namely those of one contiguous block of
positions. -/
theorem c7_first_outputs_and_block_counts :
    enumerateDFAs ['a', 'b'] 0 = dfaOneNoFinal ∧
    enumerateDFAs ['a', 'b'] 1 = dfaOneFinal ∧
    dfaOneNoFinal ≠ dfaOneFinal ∧
    (∀ i, (enumerateDFAs ['a', 'b'] i).states.length = 1 ↔ i < 2) ∧
    (∀ n, 1 ≤ n → ∃ s : Finset Nat,
      s.card = n ^ (n * 2) * 2 ^ n ∧
      ∀ i, i ∈ s ↔ (enumerateDFAs ['a', 'b'] i).states.length = n) := by
  refine ⟨by decide, by decide, by decide, ?_, ?_⟩
  · intro i
    rw [enumerateDFAs_states_length_iff ['a', 'b'] 1 (le_refl 1) i]
    have h0 : offsetN ['a', 'b'] (1 - 1) = 0 := rfl
    have h1 : offsetN ['a', 'b'] 1 = 2 := rfl
    rw [h0, h1]
    omega
  · intro n hn
    refine ⟨Finset.Ico (offsetN ['a', 'b'] (n - 1)) (offsetN ['a', 'b'] n),
      ?_, ?_⟩
    · rw [Nat.card_Ico]
      have hp := offsetN_pred ['a', 'b'] hn
      have hb : blockSize ['a', 'b'] n = n ^ (n * 2) * 2 ^ n := rfl
      omega
    · intro i
      rw [Finset.mem_Ico,
        enumerateDFAs_states_length_iff ['a', 'b'] n hn i]

/-- Witness for C7: the first output of the enumeration. -/
theorem c7_witness : enumerateDFAs ['a', 'b'] 0 = dfaOneNoFinal :=
  c7_first_outputs_and_block_counts.1

/-- C8 (amended): the converter copies states, start, finals and the
transition lookup unchanged and attaches the fixed blank symbol, the
underscore character; that blank is distinct from every alphabet symbol
whenever the alphabet does not itself contain the underscore. The
original unconditional distinctness claim fails: see the
counterexample. -/
theorem c8_converter_fields (d : DFA) :
    (convertDFAtoTM d).states = d.states ∧
    (convertDFAtoTM d).start = d.start ∧
    (convertDFAtoTM d).finals = d.finals ∧
    (convertDFAtoTM d).dfaTransitions = d.transitions ∧
    (convertDFAtoTM d).blank = '_' ∧
    ('_' ∉ d.alphabet → (convertDFAtoTM d).blank ∉ d.alphabet) :=
  ⟨rfl, rfl, rfl, rfl, rfl, fun h => h⟩

/-- Witness for C8 at the valid example DFA of the source. -/
theorem c8_witness :
    (convertDFAtoTM validDFA).states = validDFA.states ∧
    (convertDFAtoTM validDFA).start = validDFA.start ∧
    (convertDFAtoTM validDFA).finals = validDFA.finals ∧
    (convertDFAtoTM validDFA).dfaTransitions = validDFA.transitions ∧
    (convertDFAtoTM validDFA).blank = '_' ∧
    ('_' ∉ validDFA.alphabet →
      (convertDFAtoTM validDFA).blank ∉ validDFA.alphabet) :=
  c8_converter_fields validDFA

/-- Counterexample to C8 as stated: for a valid DFA whose alphabet
contains the underscore character, the attached blank is an alphabet
symbol, not distinct from all of them. -/
theorem c8_counterexample :
    validateDFA underscoreLoopDFA = 1 ∧
    (convertDFAtoTM underscoreLoopDFA).blank ∈ underscoreLoopDFA.alphabet := by
  exact ⟨by decide, by decide⟩

/-- C9: on every structurally valid DFA the emptiness checker terminates
with an answer (the loop ends within its fuel), and the record of
dequeued states of the instrumented run is duplicate-free: no state is
ever dequeued twice, because a state is marked visited before being
enqueued. -/
theorem c9_emptiness_terminates_no_revisit (d : DFA)
    (hv : validateDFA d = 1) :
    ∃ b, dfaRecognizesEmpty d = some b ∧ (dfaTraceRun d).1 = some b ∧
      (dfaTraceRun d).2.Nodup := by
  have hw := (validateDFA_eq_one_iff d).mp hv
  obtain ⟨b, hb⟩ := dfaRecognizesEmpty_isSome d hw
  refine ⟨b, hb, ?_, dfaTraceRun_nodup d⟩
  rw [dfaTraceRun_fst]
  exact hb

/-- Witness for C9 at the empty-language example DFA of the source. -/
theorem c9_witness :
    ∃ b, dfaRecognizesEmpty emptyDFA = some b ∧
      (dfaTraceRun emptyDFA).1 = some b ∧ (dfaTraceRun emptyDFA).2.Nodup :=
  c9_emptiness_terminates_no_revisit emptyDFA (by decide)

/-- C10: the emptiness checker reads only the start, finals, transitions
and alphabet fields, so two DFA records agreeing on those four fields get
the same answer, whatever their states lists are. -/
theorem c10_states_independent (d1 d2 : DFA)
    (hs : d1.start = d2.start) (hf : d1.finals = d2.finals)
    (ht : d1.transitions = d2.transitions) (ha : d1.alphabet = d2.alphabet) :
    dfaRecognizesEmpty d1 = dfaRecognizesEmpty d2 := by
  rw [dfaRecognizesEmpty, dfaRecognizesEmpty, hs, hf, ht, ha]

/-- Witness for C10: the empty-language example and a copy with an
unrelated states list get the same answer. -/
theorem c10_witness :
    dfaRecognizesEmpty emptyDFA = dfaRecognizesEmpty emptyDFAWide :=
  c10_states_independent emptyDFA emptyDFAWide rfl rfl rfl rfl

end EC05

